import Mathlib

/-!
Shallow embedding of the record codec in
src/trunk/esutil/recfile/records.cpp (class Records), together with
theorems settling the specification claims about it.

Conventions of the embedding:
* the C++ `FILE*` stream is modelled as a byte position (for binary
  seeking) or as the list of characters not yet consumed (for ASCII
  reading);
* Python objects that may be NULL / None are modelled as `Option`;
* fallible code (`throw`) returns `Except String`;
* `std::vector<string>` / `std::string` become `List String` / `String`
  or `List Char`.
-/

/- ===== File classification (ProcessDelim / SetFileType) ===== -/

/-- `mFileType`: BINARY_FILE or ASCII_FILE. -/
inductive FileType where
  | binary
  | ascii
deriving DecidableEq

/-- `Records::ProcessDelim`: `mReadAsWhitespace` is set exactly when
`mDelim[0] == ' '`.  On an empty `std::string`, `operator[]` at index 0
yields the null character, which is not a space, so the empty delimiter
gives `false`. -/
def readAsWhitespaceOf (delim : String) : Bool :=
  match delim.data with
  | [] => false
  | c :: _ => c = ' '

/-- `Records::SetFileType`: empty delimiter selects BINARY_FILE,
anything else ASCII_FILE. -/
def setFileType (delim : String) : FileType :=
  if delim = ("") then FileType.binary else FileType.ascii

/- ===== Read strategy selection (ReadPrepare / ReadFromFile / ReadRow) ===== -/

/-- The three read strategies the spec names. -/
inductive ReadStrategy where
  | wholeFileBinary
  | wholeRowBinary
  | perField
deriving DecidableEq

/-- `Records::ReadPrepare`: sets the pair
(`mReadWholeFileBinary`, `mReadWholeRowBinary`), both initialized to
`false` in `InitializeVariables`.  (In the remaining ASCII case the
source additionally builds the scan formats; see `makeScanFormats`.) -/
def readPrepare (ft : FileType) (nrowsToRead nrows keepNfields nfields : Nat) :
    Bool × Bool :=
  if ft = FileType.binary ∧ nrowsToRead = nrows ∧ keepNfields = nfields then
    (true, false)
  else if ft = FileType.binary ∧ keepNfields = nfields then
    (false, true)
  else
    (false, false)

/-- The dispatch of `Records::ReadFromFile` (tests `mReadWholeFileBinary`)
followed by `Records::ReadRow` (tests `mReadWholeRowBinary`); the fallback
is `ReadFields`, the per-field path. -/
def strategyOf (flags : Bool × Bool) : ReadStrategy :=
  if flags.1 then ReadStrategy.wholeFileBinary
  else if flags.2 then ReadStrategy.wholeRowBinary
  else ReadStrategy.perField

/-- One I/O step of a read session, recording which low-level operation
the source performs and at which granularity. -/
inductive IOAction where
  /-- `ReadAllAsBinary`: the single `fread(mData, mRowSize, mNrows, mFptr)`. -/
  | bulkRead (bytes : Nat)
  /-- `ReadWholeRowBinary`: `fread(mData, mRowSize, 1, mFptr)`. -/
  | rowRead (bytes : Nat)
  /-- `ReadField fnum` (kept field). -/
  | fieldRead (fnum : Nat)
  /-- `SkipField fnum` (field not kept). -/
  | fieldSkip (fnum : Nat)
  /-- `SkipRows`, skipping `k` unselected rows. -/
  | rowSkip (k : Nat)
deriving DecidableEq

/-- `Records::ReadFields`: for each field index, read it if `mKeep[fnum]`
else skip it. -/
def readFieldsTrace (keep : List Bool) : List IOAction :=
  (List.range keep.length).map fun f =>
    if keep.getD f false then IOAction.fieldRead f else IOAction.fieldSkip f

/-- `Records::ReadRow`: a whole-row `fread` when `mReadWholeRowBinary`,
otherwise the per-field loop. -/
def readRowTrace (wholeRowBinary : Bool) (rowSize : Nat) (keep : List Bool) :
    List IOAction :=
  if wholeRowBinary then [IOAction.rowRead rowSize] else readFieldsTrace keep

/-- The loop body of `Records::ReadRows`: `current_row` tracks the file
cursor; a gap before the next requested row first emits a `SkipRows`. -/
def readRowsTraceGo (wholeRowBinary : Bool) (rowSize : Nat) (keep : List Bool) :
    List Nat → Nat → List IOAction
  | [], _ => []
  | r :: rest, current =>
      (if current < r then [IOAction.rowSkip (r - current)] else [])
        ++ readRowTrace wholeRowBinary rowSize keep
        ++ readRowsTraceGo wholeRowBinary rowSize keep rest (r + 1)

/-- `Records::ReadFromFile`: the whole-file bulk read when
`mReadWholeFileBinary`, otherwise `ReadRows` starting from row 0. -/
def readFromFileTrace (flags : Bool × Bool) (rowSize nrows : Nat)
    (keep : List Bool) (rows : List Nat) : List IOAction :=
  if flags.1 then [IOAction.bulkRead (rowSize * nrows)]
  else readRowsTraceGo flags.2 rowSize keep rows 0

/- ===== Row subset processing (Object2IntpArray / ProcessRowsToRead / ReadRows) ===== -/

/-- `Records::ProcessRowsToRead` composed with `Object2IntpArray`.
`Object2IntpArray` returns NULL exactly when its argument is NULL or
`Py_None` (modelled `none`); any other object is converted to an index
array, possibly of size zero.  The first component is `mNrowsToRead`:
the total `mNrows` when the array is NULL, else the array's size. -/
def processRowsToRead (nrows : Nat) (rows : Option (List Nat)) :
    Nat × Option (List Nat) :=
  match rows with
  | none => (nrows, none)
  | some l => (l.length, some l)

/-- The row indices the loop of `Records::ReadRows` visits: `irow` runs
below `mNrowsToRead`, and `row2read` is `rows[irow]` when
`mNrowsToRead != mNrows`, else `irow` itself. -/
def readRowIndices (nrows : Nat) (rows : Option (List Nat)) : List Nat :=
  let p := processRowsToRead nrows rows
  if p.1 ≠ nrows then p.2.getD [] else List.range p.1

/- ===== Field-name matching (ListStringMatch / SubDtype) ===== -/

/-- The matching loop of `Records::ListStringMatch`: walk the schema
names in order, keeping the running index `i` of each name found in the
requested list (`find(goodones.begin(), goodones.end(), name)`). -/
def matchIdsAux (snames req : List String) (i : Nat) : List Nat :=
  match snames with
  | [] => []
  | n :: rest =>
      (if req.contains n then [i] else []) ++ matchIdsAux rest req (i + 1)

/-- `Records::ListStringMatch` on a list whose items are all strings:
a list of length ≤ 0 selects every schema index; otherwise the indices
of schema names present in the request, in schema order; an empty match
set throws. -/
def listStringMatch (snames req : List String) : Except String (List Nat) :=
  let matchids :=
    if req.length ≤ 0 then List.range snames.length
    else matchIdsAux snames req 0
  if matchids.length = 0 then
    Except.error ("None of the requested field names matched")
  else Except.ok matchids

/-- The name list `Records::SubDtype` builds from the match:
`matchnames[i] = names[matchids[i]]` (these names, in this order, form
the reduced type descriptor via `ExtractSubDescr`). -/
def subFieldNames (names req : List String) : Except String (List String) :=
  match listStringMatch names req with
  | Except.error e => Except.error e
  | Except.ok ids => Except.ok (ids.map fun j => names.getD j (""))

/- ===== Row skip-ahead (SkipRows / SkipAsciiRows / SkipBinaryRows) ===== -/

/-- The `while (nlines < nskip)` loop of `Records::SkipAsciiRows`:
`fgetc` until `nskip` newline characters have been counted, throwing on
EOF. -/
def skipAsciiChars : Nat → List Char → Except String (List Char)
  | 0, cs => Except.ok cs
  | _ + 1, [] => Except.error ("Reached EOF prematurely")
  | k + 1, c :: cs =>
      if c = '\n' then skipAsciiChars k cs else skipAsciiChars (k + 1) cs
termination_by _ cs => cs.length

/-- `Records::SkipAsciiRows` (the loop runs only when `nskip > 0`). -/
def skipAsciiRows (nskip : Nat) (cs : List Char) : Except String (List Char) :=
  if 0 < nskip then skipAsciiChars nskip cs else Except.ok cs

/-- `Records::SkipBinaryRows`: `fseeko(mFptr, mRowSize*nskip, SEEK_CUR)`
when `nskip > 0`, modelled as advancing the byte position. -/
def skipBinaryRows (nskip rowSize pos : Nat) : Nat :=
  if 0 < nskip then pos + rowSize * nskip else pos

/-- The read cursor of the open file: a byte position for a binary
file, the unconsumed characters for an ASCII file. -/
inductive FileCursor where
  | binaryAt (pos : Nat)
  | asciiAt (cs : List Char)
deriving DecidableEq

/-- `Records::SkipRows`: for BINARY_FILE, seek over
`row2read - current_row` rows; for ASCII_FILE, count newlines over the
same number of rows — the whitespace sub-mode computes the identical
`rows2skip` (the `+ 1` adjustment is commented out in the source). -/
def skipRows (readAsWs : Bool) (rowSize current row2read : Nat) :
    FileCursor → Except String FileCursor
  | FileCursor.binaryAt pos =>
      Except.ok (FileCursor.binaryAt (skipBinaryRows (row2read - current) rowSize pos))
  | FileCursor.asciiAt cs =>
      if readAsWs then
        (skipAsciiRows (row2read - current) cs).map FileCursor.asciiAt
      else
        (skipAsciiRows (row2read - current) cs).map FileCursor.asciiAt

/- ===== ASCII write engine (WriteRows / WriteField / WriteStringAsAscii) ===== -/

/-- One emitted unit of an ASCII row: the value of element `el` of field
`fnum`, a copy of the delimiter string, or the terminating newline. -/
inductive AToken where
  | elem (fnum el : Nat)
  | delim
  | newline
deriving DecidableEq

/-- `Records::WriteField` (called once per element by `WriteRows`):
write the element's value, then the delimiter when
`fnum < mNfields - 1`. -/
def writeFieldTok (nfields fnum el : Nat) : List AToken :=
  AToken.elem fnum el ::
    (if fnum < nfields - 1 then [AToken.delim] else [])

/-- The body of the row loop of `Records::WriteRows`: fields in schema
order, each field's `mNel[fnum]` elements in order, then
`fputc('\n', mFptr)`.  `nel` lists the element count of each field. -/
def writeRowToks (nel : List Nat) : List AToken :=
  ((List.range nel.length).flatMap fun f =>
    (List.range (nel.getD f 0)).flatMap fun e => writeFieldTok nel.length f e)
    ++ [AToken.newline]

/-- `Records::WriteRows` over all `mNrows` rows. -/
def writeRowsToks (nel : List Nat) : Nat → List AToken
  | 0 => []
  | n + 1 => writeRowToks nel ++ writeRowsToks nel n

/-- `Records::WriteStringAsAscii` on one string element (`slen`
characters of the buffer): a null byte breaks out of the element when
`mIgnoreNull`, else is replaced by a space when `mPadNull`, else written
as is. -/
def writeStringAsAscii (padNull ignoreNull : Bool) : List Char → List Char
  | [] => []
  | c :: rest =>
      if c = '\x00' then
        if ignoreNull then []
        else if padNull then ' ' :: writeStringAsAscii padNull ignoreNull rest
        else c :: writeStringAsAscii padNull ignoreNull rest
      else c :: writeStringAsAscii padNull ignoreNull rest

/- ===== Scan format table (MakeScanFormats) ===== -/

/-- `NPY_STRING`: type number 18 in the numpy C enum. -/
def npySTRING : Nat := 18

/-- `mScanFormats.resize(nf, "%")` with `nf = 24`. -/
def baseScanInit : List String := List.replicate 24 ("%")

/-- The per-type conversion letters `Records::MakeScanFormats` appends,
as (numpy type number, appended text).  The `NPY_*_FMT` macros are
platform constants; this instantiation is a 32-bit-long platform, where
`NPY_INT64` is `NPY_LONGLONG` (type number 9) and `NPY_INT64_FMT` is the
non-portable `"Ld"` the source's fix-up loop corrects.  `"f"`, `"lf"`
and `"Lf"` for `NPY_FLOAT` (11), `NPY_DOUBLE` (12) and `NPY_LONGDOUBLE`
(13) are literal in the source.  `NPY_STRING` (18) is never assigned. -/
def npyScanAssignments : List (Nat × String) :=
  [(1, ("hhd")), (2, ("hhu")), (3, ("hd")), (4, ("hu")), (5, ("d")),
   (6, ("u")), (9, ("Ld")), (10, ("Lu")), (11, ("f")), (12, ("lf")),
   (13, ("Lf"))]

/-- The assignment steps of `Records::MakeScanFormats`
(`mScanFormats[t] += NPY_..._FMT`). -/
def scanFormatsAssigned : List String :=
  npyScanAssignments.foldl
    (fun fmts p => fmts.set p.1 ((fmts.getD p.1 ("")) ++ p.2)) baseScanInit

/-- The fix-up loop of `Records::MakeScanFormats` replacing the
non-portable long-long formats. -/
def fixLongLong (f : String) : String :=
  if f = ("%Ld") then ("%lld")
  else if f = ("%Lu") then ("%llu")
  else f

/-- `Records::MakeScanFormats`: initialize, assign, fix up, and — only
when `(!mReadAsWhitespace) && add_delim` — append `' ' + mDelim` (a
space followed by the delimiter) to every entry that is not the bare
`"%"`. -/
def makeScanFormats (addDelim readAsWs : Bool) (delim : String) : List String :=
  let fixed := scanFormatsAssigned.map fixLongLong
  if (!readAsWs) && addDelim then
    fixed.map fun f => if f = ("%") then f else f ++ (" ") ++ delim
  else fixed

/-- The scan-format table a read session builds
(`MakeScanFormats(true)` after `ProcessDelim` has set
`mReadAsWhitespace`). -/
def sessionScanFormats (delim : String) : List String :=
  makeScanFormats true (readAsWhitespaceOf delim) delim

/-- The format table before the delimiter-appending step
(`MakeScanFormats(false)`, as `MakePrintFormats` calls it). -/
def baseScanFormats : List String := makeScanFormats false false ("")

/-- A delimiter string that is non-empty and contains no whitespace
character. -/
def nonWhitespaceDelim (d : String) : Prop :=
  d.data ≠ [] ∧ ∀ c ∈ d.data, c.isWhitespace = false

instance (d : String) : Decidable (nonWhitespaceDelim d) := by
  unfold nonWhitespaceDelim; infer_instance

/- ===== ASCII string-field read (ReadAsciiBytes) ===== -/

/-- The inner loop of `Records::ReadAsciiBytes`: read `n` data
characters, each checked against EOF (`if (c==EOF) throw`); returns the
characters read and the rest of the input. -/
def readCheckedChars (fname : String) :
    Nat → List Char → Except String (List Char × List Char)
  | 0, cs => Except.ok ([], cs)
  | _ + 1, [] =>
      Except.error (("EOF reached unexpectedly reading field: ") ++ fname)
  | n + 1, c :: cs =>
      (readCheckedChars fname n cs).map fun p => (c :: p.1, p.2)

/-- `Records::ReadAsciiBytes`: per element, `size_per_el` checked data
characters followed by one `fgetc` for the delimiter or EOL whose result
is not checked (on an exhausted input that `fgetc` just returns EOF and
the loop proceeds). -/
def readAsciiBytes (fname : String) (sizePerEl : Nat) :
    Nat → List Char → Except String (List Char × List Char)
  | 0, cs => Except.ok ([], cs)
  | nel + 1, cs =>
      match readCheckedChars fname sizePerEl cs with
      | Except.error e => Except.error e
      | Except.ok (data, rest) =>
          match readAsciiBytes fname sizePerEl nel (rest.drop 1) with
          | Except.error e => Except.error e
          | Except.ok (more, rest2) => Except.ok (data ++ more, rest2)

/- ===== Theorems ===== -/

lemma readFieldsTrace_getD (keep : List Bool) (f : Nat) :
    (readFieldsTrace keep).getD f (IOAction.fieldSkip f)
      = (if keep.getD f false then IOAction.fieldRead f else IOAction.fieldSkip f) := by
  unfold readFieldsTrace
  rcases Nat.lt_or_ge f keep.length with h | h
  · rw [List.getD_eq_getElem?_getD, List.getElem?_map, List.getElem?_range h]
    rfl
  · rw [List.getD_eq_getElem?_getD, List.getElem?_map]
    rw [List.getElem?_eq_none (by simpa using h)]
    rw [List.getD_eq_getElem?_getD, List.getElem?_eq_none (by simpa using h)]
    rfl

/-- C1: the read strategy is one of three, selected by `ReadPrepare`
exactly as the spec describes: whole-file bulk binary read (of
`rowSize * nrows` bytes in one operation) when the file is binary and
every row and every field is requested; whole-row binary read (one
contiguous `rowSize`-byte block per selected row) when the file is
binary, every field is requested, but only a row subset; otherwise the
per-field path, which per row visits each field once, reading it when
kept and skipping it otherwise. -/
theorem readStrategy_selection (ft : FileType)
    (nrowsToRead nrows keepNfields nfields rowSize : Nat)
    (keep : List Bool) (rows : List Nat) (f : Nat) :
    (strategyOf (readPrepare ft nrowsToRead nrows keepNfields nfields)
        = ReadStrategy.wholeFileBinary
      ↔ ft = FileType.binary ∧ nrowsToRead = nrows ∧ keepNfields = nfields)
    ∧ (strategyOf (readPrepare ft nrowsToRead nrows keepNfields nfields)
        = ReadStrategy.wholeRowBinary
      ↔ ft = FileType.binary ∧ keepNfields = nfields ∧ nrowsToRead ≠ nrows)
    ∧ (strategyOf (readPrepare ft nrowsToRead nrows keepNfields nfields)
        = ReadStrategy.perField
      ↔ ft = FileType.ascii ∨ keepNfields ≠ nfields)
    ∧ readFromFileTrace (readPrepare ft nrowsToRead nrows keepNfields nfields)
        rowSize nrows keep rows
      = (if strategyOf (readPrepare ft nrowsToRead nrows keepNfields nfields)
            = ReadStrategy.wholeFileBinary
         then [IOAction.bulkRead (rowSize * nrows)]
         else
           readRowsTraceGo
             (decide (strategyOf (readPrepare ft nrowsToRead nrows keepNfields nfields)
                = ReadStrategy.wholeRowBinary))
             rowSize keep rows 0)
    ∧ readRowTrace true rowSize keep = [IOAction.rowRead rowSize]
    ∧ (readRowTrace false rowSize keep).length = keep.length
    ∧ (readRowTrace false rowSize keep).getD f (IOAction.fieldSkip f)
      = (if keep.getD f false then IOAction.fieldRead f else IOAction.fieldSkip f) := by
  refine ⟨?_, ?_, ?_, ?_, rfl, ?_, ?_⟩
  · cases ft <;> by_cases h1 : nrowsToRead = nrows <;>
      by_cases h2 : keepNfields = nfields <;>
        simp [readPrepare, strategyOf, h1, h2]
  · cases ft <;> by_cases h1 : nrowsToRead = nrows <;>
      by_cases h2 : keepNfields = nfields <;>
        simp [readPrepare, strategyOf, h1, h2]
  · cases ft <;> by_cases h1 : nrowsToRead = nrows <;>
      by_cases h2 : keepNfields = nfields <;>
        simp [readPrepare, strategyOf, h1, h2]
  · cases ft <;> by_cases h1 : nrowsToRead = nrows <;>
      by_cases h2 : keepNfields = nfields <;>
        simp [readPrepare, strategyOf, readFromFileTrace, h1, h2]
  · simp [readRowTrace, readFieldsTrace]
  · simpa [readRowTrace] using readFieldsTrace_getD keep f

/-- C3 (counterexample): with 3 rows in the file, an explicitly empty
row-subset input yields `mNrowsToRead = 0` and an empty row list — not
a read of all 3 rows as the claim states. -/
theorem emptyRowSubset_reads_zero :
    (processRowsToRead 3 (some [])).1 = 0
    ∧ (processRowsToRead 3 (some [])).1 ≠ 3
    ∧ readRowIndices 3 (some []) = ([] : List Nat)
    ∧ readRowIndices 3 (some []) ≠ List.range 3 := by decide

/-- C3 (amended): an absent row-subset input (NULL / `Py_None`)
defaults to reading all rows — the row list is `0, …, nrows-1` and the
count equals the file's row count; an explicitly empty row-subset input
instead yields a count of 0, different from the row count, and an empty
row list. -/
theorem rowSubset_defaults (nrows : Nat) (h : 1 ≤ nrows) :
    processRowsToRead nrows none = (nrows, none)
    ∧ readRowIndices nrows none = List.range nrows
    ∧ (processRowsToRead nrows (some [])).1 = 0
    ∧ (processRowsToRead nrows (some [])).1 ≠ nrows
    ∧ readRowIndices nrows (some []) = [] := by
  refine ⟨rfl, ?_, rfl, by simpa [processRowsToRead] using by omega, ?_⟩
  · simp [readRowIndices, processRowsToRead]
  · simp [readRowIndices, processRowsToRead]

theorem rowSubset_defaults_witness :
    processRowsToRead 3 none = (3, none)
    ∧ readRowIndices 3 none = List.range 3
    ∧ (processRowsToRead 3 (some [])).1 = 0
    ∧ (processRowsToRead 3 (some [])).1 ≠ 3
    ∧ readRowIndices 3 (some []) = [] :=
  rowSubset_defaults 3 (by decide)

/-- C8 (counterexample): the delimiter `"\t"` has a whitespace first
character, yet `ProcessDelim` does not select the whitespace-tokenized
sub-mode for it — only a leading space character does. -/
theorem tabDelim_not_whitespace_mode :
    Char.isWhitespace '\t' = true
    ∧ setFileType ("\t") = FileType.ascii
    ∧ readAsWhitespaceOf ("\t") = false := by decide

/-- C8 (amended): the file kind is derived deterministically from the
delimiter alone — empty delimiter ⇔ Binary, non-empty ⇔ Delimited — and
the whitespace-tokenized sub-mode is selected exactly when the
delimiter's first character is the space character itself, not any
whitespace character. -/
theorem fileKind_from_delim (d : String) :
    (setFileType d = FileType.binary ↔ d = (""))
    ∧ (setFileType d = FileType.ascii ↔ d ≠ (""))
    ∧ (readAsWhitespaceOf d = true ↔ d.data.head? = some ' ') := by
  refine ⟨?_, ?_, ?_⟩
  · by_cases h : d = ("") <;> simp [setFileType, h]
  · by_cases h : d = ("") <;> simp [setFileType, h]
  · unfold readAsWhitespaceOf
    cases hd : d.data with
    | nil => simp
    | cons c rest => simp

/-- C6: ASCII null handling of byte-string elements.  With
ignore-nulls-after-first enabled the element is truncated at the first
null byte (everything after it, nulls and non-nulls alike, is dropped);
otherwise with pad-nulls enabled every null byte is written as a space;
with neither option the bytes are written literally.  In particular
"ab\0\0cd" is emitted as "ab  cd" under pad-nulls and as "ab" under
ignore-after-first. -/
theorem writeStringAsAscii_null_handling :
    (∀ (pad : Bool) (s : List Char),
        writeStringAsAscii pad true s = s.takeWhile fun c => c != '\x00')
    ∧ (∀ s : List Char,
        writeStringAsAscii true false s
          = s.map fun c => if c = '\x00' then ' ' else c)
    ∧ (∀ s : List Char, writeStringAsAscii false false s = s)
    ∧ writeStringAsAscii true false ['a', 'b', '\x00', '\x00', 'c', 'd']
        = ['a', 'b', ' ', ' ', 'c', 'd']
    ∧ writeStringAsAscii false true ['a', 'b', '\x00', '\x00', 'c', 'd']
        = ['a', 'b'] := by
  refine ⟨?_, ?_, ?_, by decide, by decide⟩
  · intro pad s
    induction s with
    | nil => rfl
    | cons c rest ih =>
        by_cases h : c = '\x00' <;>
          simp [writeStringAsAscii, List.takeWhile_cons, h, ih]
  · intro s
    induction s with
    | nil => rfl
    | cons c rest ih =>
        by_cases h : c = '\x00' <;> simp [writeStringAsAscii, h, ih]
  · intro s
    induction s with
    | nil => rfl
    | cons c rest ih =>
        by_cases h : c = '\x00' <;> simp [writeStringAsAscii, h, ih]

lemma readCheckedChars_ok (fname : String) (n : Nat) (cs : List Char)
    (h : n ≤ cs.length) :
    readCheckedChars fname n cs = Except.ok (cs.take n, cs.drop n) := by
  induction n generalizing cs with
  | zero => simp [readCheckedChars]
  | succ m ih =>
      cases cs with
      | nil => simp at h
      | cons c rest =>
          simp [readCheckedChars, ih rest (by simpa using h), Except.map]

lemma readCheckedChars_err (fname : String) (n : Nat) (cs : List Char)
    (h : cs.length < n) :
    readCheckedChars fname n cs
      = Except.error (("EOF reached unexpectedly reading field: ") ++ fname) := by
  induction n generalizing cs with
  | zero => simp at h
  | succ m ih =>
      cases cs with
      | nil => rfl
      | cons c rest =>
          simp [readCheckedChars, ih rest (by simpa using h), Except.map]

/-- C10: the EOF check of the ASCII string-field read applies only to
the `sizePerEl` data characters of each of the `nel` elements; the one
separator character consumed after each element is read with no check.
Hence the read succeeds exactly when the input holds
`nel*sizePerEl + (nel-1)` characters — data for every element plus one
separator between consecutive elements but none after the last — so an
input ending immediately after the last element's last data character
completes without error. -/
theorem readAsciiBytes_eof_check (fname : String) (nel sz : Nat)
    (cs : List Char) (h : 1 ≤ sz) :
    (readAsciiBytes fname sz nel cs).isOk = true
      ↔ nel * sz + nel - 1 ≤ cs.length := by
  induction nel generalizing cs with
  | zero => simp [readAsciiBytes, Except.isOk, Except.toBool]
  | succ m ih =>
      rcases Nat.lt_or_ge cs.length sz with hl | hl
      · rw [show readAsciiBytes fname sz (m + 1) cs
              = (match readCheckedChars fname sz cs with
                 | Except.error e => Except.error e
                 | Except.ok (data, rest) =>
                     match readAsciiBytes fname sz m (rest.drop 1) with
                     | Except.error e => Except.error e
                     | Except.ok (more, rest2) => Except.ok (data ++ more, rest2))
              from rfl]
        rw [readCheckedChars_err fname sz cs hl]
        obtain ⟨d, hd⟩ : ∃ d, (m + 1) * sz = sz + d := ⟨m * sz, by ring⟩
        rw [hd]
        simp [Except.isOk, Except.toBool]
        omega
      · have key : (readAsciiBytes fname sz (m + 1) cs).isOk
            = (readAsciiBytes fname sz m (cs.drop (sz + 1))).isOk := by
          rw [show readAsciiBytes fname sz (m + 1) cs
                = (match readCheckedChars fname sz cs with
                   | Except.error e => Except.error e
                   | Except.ok (data, rest) =>
                       match readAsciiBytes fname sz m (rest.drop 1) with
                       | Except.error e => Except.error e
                       | Except.ok (more, rest2) => Except.ok (data ++ more, rest2))
                from rfl]
          simp only [readCheckedChars_ok fname sz cs hl, List.drop_drop]
          cases hres : readAsciiBytes fname sz m (cs.drop (sz + 1)) with
          | error e => simp [hres, Except.isOk, Except.toBool]
          | ok p => cases p with
              | mk more rest2 => simp [hres, Except.isOk, Except.toBool]
        rw [key, ih (cs.drop (sz + 1))]
        simp only [List.length_drop]
        rw [Nat.succ_mul m sz]
        have h1 : m = 0 → m * sz = 0 := fun hm => by simp [hm]
        have h2 : 1 ≤ m → sz ≤ m * sz := fun hm => Nat.le_mul_of_pos_left sz hm
        omega

theorem readAsciiBytes_eof_check_witness :
    1 ≤ 3
    ∧ ((readAsciiBytes ("f") 3 2 (("abc def").data)).isOk = true
        ↔ 2 * 3 + 2 - 1 ≤ (("abc def").data).length) :=
  ⟨by decide, readAsciiBytes_eof_check ("f") 2 3 (("abc def").data) (by decide)⟩

lemma skipAsciiChars_err (k : Nat) (cs : List Char)
    (h : cs.count '\n' < k) :
    skipAsciiChars k cs = Except.error ("Reached EOF prematurely") := by
  induction cs generalizing k with
  | nil =>
      cases k with
      | zero => simp at h
      | succ m => simp [skipAsciiChars]
  | cons c rest ih =>
      cases k with
      | zero => simp at h
      | succ m =>
          by_cases hc : c = '\n'
          · rw [skipAsciiChars, if_pos hc]
            apply ih
            subst hc
            simp [List.count_cons] at h
            omega
          · rw [skipAsciiChars, if_neg hc]
            apply ih
            simp [List.count_cons, hc] at h
            simpa using h

lemma skipAsciiChars_ok (k : Nat) (cs : List Char)
    (h : k ≤ cs.count '\n') :
    ∃ pre post, cs = pre ++ post ∧ pre.count '\n' = k
      ∧ skipAsciiChars k cs = Except.ok post := by
  induction cs generalizing k with
  | nil =>
      cases k with
      | zero => exact ⟨[], [], by simp, by simp, by simp [skipAsciiChars]⟩
      | succ m => simp at h
  | cons c rest ih =>
      cases k with
      | zero => exact ⟨[], c :: rest, by simp, by simp, by simp [skipAsciiChars]⟩
      | succ m =>
          by_cases hc : c = '\n'
          · subst hc
            have h' : m ≤ rest.count '\n' := by
              simp [List.count_cons] at h; omega
            obtain ⟨pre, post, hsplit, hcount, hskip⟩ := ih m h'
            refine ⟨'\n' :: pre, post, by simp [hsplit], ?_, ?_⟩
            · simp [List.count_cons, hcount]
            · rw [skipAsciiChars, if_pos rfl]
              exact hskip
          · have h' : m + 1 ≤ rest.count '\n' := by
              simp [List.count_cons, hc] at h; simpa using h
            obtain ⟨pre, post, hsplit, hcount, hskip⟩ := ih (m + 1) h'
            refine ⟨c :: pre, post, by simp [hsplit], ?_, ?_⟩
            · simp [List.count_cons, hc, hcount]
            · rw [skipAsciiChars, if_neg hc]
              exact hskip

/-- C7: skipping the gap between `current_row` and the next requested
row `row2read` (`k = row2read - current_row` rows).  On a binary file
the cursor seeks forward exactly `rowSize * k` bytes.  On a delimited
file — identically in the whitespace-tokenized sub-mode, which applies
no special-case adjustment — characters are consumed until exactly `k`
newline characters have been counted, and if the input holds fewer than
`k` newlines the skip fails with the premature-EOF error. -/
theorem skipRows_spec (ws : Bool) (rowSize current row2read pos : Nat)
    (cs csShort : List Char)
    (h1 : current < row2read)
    (h2 : row2read - current ≤ cs.count '\n')
    (h3 : csShort.count '\n' < row2read - current) :
    skipRows ws rowSize current row2read (FileCursor.binaryAt pos)
      = Except.ok (FileCursor.binaryAt (pos + rowSize * (row2read - current)))
    ∧ skipRows true rowSize current row2read (FileCursor.asciiAt cs)
      = skipRows false rowSize current row2read (FileCursor.asciiAt cs)
    ∧ (∃ pre post, cs = pre ++ post
        ∧ pre.count '\n' = row2read - current
        ∧ skipRows ws rowSize current row2read (FileCursor.asciiAt cs)
          = Except.ok (FileCursor.asciiAt post))
    ∧ skipRows ws rowSize current row2read (FileCursor.asciiAt csShort)
      = Except.error ("Reached EOF prematurely") := by
  have hk : 0 < row2read - current := Nat.sub_pos_of_lt h1
  refine ⟨?_, ?_, ?_, ?_⟩
  · simp [skipRows, skipBinaryRows, hk]
  · cases ws <;> simp [skipRows]
  · obtain ⟨pre, post, hsplit, hcount, hskip⟩ :=
      skipAsciiChars_ok (row2read - current) cs h2
    refine ⟨pre, post, hsplit, hcount, ?_⟩
    cases ws <;> simp [skipRows, skipAsciiRows, hk, hskip, Except.map]
  · have he := skipAsciiChars_err (row2read - current) csShort h3
    cases ws <;> simp [skipRows, skipAsciiRows, hk, he, Except.map]

theorem skipRows_spec_witness :
    (skipRows false 4 1 3 (FileCursor.binaryAt 10)
      = Except.ok (FileCursor.binaryAt (10 + 4 * (3 - 1))))
    ∧ skipRows true 4 1 3 (FileCursor.asciiAt (("a\nb\nc").data))
      = skipRows false 4 1 3 (FileCursor.asciiAt (("a\nb\nc").data))
    ∧ (∃ pre post, ("a\nb\nc").data = pre ++ post
        ∧ pre.count '\n' = 3 - 1
        ∧ skipRows false 4 1 3 (FileCursor.asciiAt (("a\nb\nc").data))
          = Except.ok (FileCursor.asciiAt post))
    ∧ skipRows false 4 1 3 (FileCursor.asciiAt (("x\n").data))
      = Except.error ("Reached EOF prematurely") :=
  skipRows_spec false 4 1 3 10 (("a\nb\nc").data) (("x\n").data)
    (by decide) (by decide) (by decide)

lemma matchIdsAux_shift (snames req : List String) (i : Nat) :
    matchIdsAux snames req i = (matchIdsAux snames req 0).map fun j => j + i := by
  induction snames generalizing i with
  | nil => simp [matchIdsAux]
  | cons n rest ih =>
      have e1 : matchIdsAux (n :: rest) req i
          = (if req.contains n then [i] else []) ++ matchIdsAux rest req (i + 1) := rfl
      have e0 : matchIdsAux (n :: rest) req 0
          = (if req.contains n then [0] else []) ++ matchIdsAux rest req 1 := rfl
      rw [e1, e0, List.map_append, ih (i + 1), ih 1, List.map_map]
      have hone : (matchIdsAux rest req 0).map ((fun j => j + i) ∘ fun j => j + 1)
          = (matchIdsAux rest req 0).map fun j => j + (i + 1) := by
        apply List.map_congr_left
        intro a _
        simp [Function.comp]
        omega
      rw [hone]
      congr 1
      by_cases hc : n ∈ req <;> simp [hc]

lemma matchIdsAux_map_getD (names req : List String) :
    (matchIdsAux names req 0).map (fun j => names.getD j (""))
      = names.filter fun n => req.contains n := by
  induction names with
  | nil => simp [matchIdsAux]
  | cons x xs ih =>
      have e0 : matchIdsAux (x :: xs) req 0
          = (if req.contains x then [0] else []) ++ matchIdsAux xs req 1 := rfl
      rw [e0, List.map_append, matchIdsAux_shift xs req 1, List.map_map]
      have h2 : (matchIdsAux xs req 0).map
            ((fun j => (x :: xs).getD j ("")) ∘ fun j => j + 1)
          = (matchIdsAux xs req 0).map fun j => xs.getD j ("") := by
        apply List.map_congr_left
        intro a _
        simp [Function.comp, List.getD_cons_succ]
      rw [h2, ih]
      by_cases hc : x ∈ req <;>
        simp [hc, List.filter_cons, List.getD_cons_zero]

lemma matchIdsAux_nil_iff (names req : List String) (i : Nat) :
    matchIdsAux names req i = [] ↔ ∀ n ∈ names, req.contains n = false := by
  induction names generalizing i with
  | nil => simp [matchIdsAux]
  | cons x xs ih =>
      have e : matchIdsAux (x :: xs) req i
          = (if req.contains x then [i] else []) ++ matchIdsAux xs req (i + 1) := rfl
      rw [e]
      by_cases hc : x ∈ req <;>
        simp [hc, ih (i + 1), List.forall_mem_cons]

lemma matchIdsAux_congr (req1 req2 : List String) :
    ∀ (names : List String) (i : Nat),
      (∀ n ∈ names, req1.contains n = req2.contains n) →
      matchIdsAux names req1 i = matchIdsAux names req2 i := by
  intro names
  induction names with
  | nil => intro i _; rfl
  | cons x xs ih =>
      intro i h
      have e1 : matchIdsAux (x :: xs) req1 i
          = (if req1.contains x then [i] else []) ++ matchIdsAux xs req1 (i + 1) := rfl
      have e2 : matchIdsAux (x :: xs) req2 i
          = (if req2.contains x then [i] else []) ++ matchIdsAux xs req2 (i + 1) := rfl
      rw [e1, e2, h x (by simp), ih (i + 1) fun n hn => h n (by simp [hn])]

lemma listStringMatch_ok_of_match (snames req : List String)
    (h1 : req ≠ [])
    (h2 : matchIdsAux snames req 0 ≠ []) :
    listStringMatch snames req = Except.ok (matchIdsAux snames req 0) := by
  have hlen : ¬ req.length ≤ 0 := by
    cases req with
    | nil => exact absurd rfl h1
    | cons a l => simp
  have hlz : ¬ (matchIdsAux snames req 0).length = 0 := by
    rw [List.length_eq_zero]
    exact h2
  simp only [listStringMatch]
  rw [if_neg hlen, if_neg hlz]

/-- C2: for a non-empty requested field-name list matching at least one
schema field, the reduced field list equals the schema filtered to the
requested names — the matching fields in original schema order — and it
is invariant under permuting the requested list (e.g. requesting
["c","a"] from schema [a,b,c] yields [a,c]). -/
theorem subFieldNames_schema_order (names req req2 : List String)
    (h1 : req ≠ [])
    (h2 : ∃ n, n ∈ names ∧ req.contains n = true)
    (h3 : req2.Perm req) :
    subFieldNames names req
      = Except.ok (names.filter fun n => req.contains n)
    ∧ subFieldNames names req2 = subFieldNames names req := by
  have hne : matchIdsAux names req 0 ≠ [] := by
    rw [Ne, matchIdsAux_nil_iff]
    obtain ⟨n, hn, hcn⟩ := h2
    intro hall
    have hf := hall n hn
    rw [hcn] at hf
    simp at hf
  have hmatch := listStringMatch_ok_of_match names req h1 hne
  have hok : subFieldNames names req
      = Except.ok ((matchIdsAux names req 0).map fun j => names.getD j ("")) := by
    unfold subFieldNames
    rw [hmatch]
  have hcongr : ∀ n ∈ names, req2.contains n = req.contains n := by
    intro n _
    simp only [List.elem_eq_mem]
    exact decide_eq_decide.mpr h3.mem_iff
  refine ⟨?_, ?_⟩
  · rw [hok, matchIdsAux_map_getD]
  · have haux : matchIdsAux names req2 0 = matchIdsAux names req 0 :=
      matchIdsAux_congr req2 req names 0 hcongr
    have h1b : req2 ≠ [] := by
      intro hnil
      have hlen0 := h3.length_eq
      rw [hnil] at hlen0
      have hrnil : req = [] := by
        cases req with
        | nil => rfl
        | cons a l => simp at hlen0
      exact h1 hrnil
    have hmatch2 := listStringMatch_ok_of_match names req2 h1b (by rw [haux]; exact hne)
    unfold subFieldNames
    rw [hmatch, hmatch2, haux]

theorem subFieldNames_schema_order_witness :
    (["c", "a"] : List String) ≠ []
    ∧ (∃ n, n ∈ (["a", "b", "c"] : List String)
        ∧ (["c", "a"] : List String).contains n = true)
    ∧ (["a", "c"] : List String).Perm ["c", "a"]
    ∧ subFieldNames ["a", "b", "c"] ["c", "a"]
        = Except.ok ((["a", "b", "c"] : List String).filter
            fun n => (["c", "a"] : List String).contains n)
    ∧ subFieldNames ["a", "b", "c"] ["a", "c"]
        = subFieldNames ["a", "b", "c"] ["c", "a"] := by
  refine ⟨by decide, by decide, by decide, ?_⟩
  exact subFieldNames_schema_order ["a", "b", "c"] ["c", "a"] ["a", "c"]
    (by decide) (by decide) (by decide)

/-- C9: a non-empty requested field set matching no schema field fails
with the no-matching-fields error; requested names matching no schema
field are silently dropped when at least one other requested name
matches — appending such names (`junk`) to the request leaves the match
result unchanged and the call succeeds. -/
theorem listStringMatch_error_and_leniency (snames nreq req junk : List String)
    (h1 : nreq ≠ [])
    (h2 : ∀ n ∈ snames, nreq.contains n = false)
    (h3 : ∃ n, n ∈ snames ∧ req.contains n = true)
    (h4 : ∀ j ∈ junk, ¬ j ∈ snames) :
    listStringMatch snames nreq
      = Except.error ("None of the requested field names matched")
    ∧ (listStringMatch snames (req ++ junk)).isOk = true
    ∧ listStringMatch snames (req ++ junk) = listStringMatch snames req := by
  have hlen : ¬ nreq.length ≤ 0 := by
    cases nreq with
    | nil => exact absurd rfl h1
    | cons a l => simp
  have herr : listStringMatch snames nreq
      = Except.error ("None of the requested field names matched") := by
    have hnil : matchIdsAux snames nreq 0 = [] :=
      (matchIdsAux_nil_iff snames nreq 0).mpr h2
    simp only [listStringMatch]
    rw [if_neg hlen, hnil]
    rfl
  have hreq_ne : req ≠ [] := by
    obtain ⟨n, _, hcn⟩ := h3
    intro hnil
    subst hnil
    simp at hcn
  have hcongr : ∀ n ∈ snames, (req ++ junk).contains n = req.contains n := by
    intro n hn
    have hnj : ¬ n ∈ junk := fun hj => h4 n hj hn
    simp only [List.elem_eq_mem]
    apply decide_eq_decide.mpr
    simp [List.mem_append, hnj]
  have hne : matchIdsAux snames req 0 ≠ [] := by
    rw [Ne, matchIdsAux_nil_iff]
    obtain ⟨n, hn, hcn⟩ := h3
    intro hall
    have hf := hall n hn
    rw [hcn] at hf
    simp at hf
  have haux : matchIdsAux snames (req ++ junk) 0 = matchIdsAux snames req 0 :=
    matchIdsAux_congr (req ++ junk) req snames 0 hcongr
  have happ_ne : (req ++ junk) ≠ [] := by
    intro hnil
    rw [List.append_eq_nil] at hnil
    exact hreq_ne hnil.1
  have hm1 := listStringMatch_ok_of_match snames (req ++ junk) happ_ne
    (by rw [haux]; exact hne)
  have hm2 := listStringMatch_ok_of_match snames req hreq_ne hne
  refine ⟨herr, ?_, ?_⟩
  · rw [hm1]
    rfl
  · rw [hm1, hm2, haux]

theorem listStringMatch_error_and_leniency_witness :
    listStringMatch ["x", "y"] ["q"]
      = Except.error ("None of the requested field names matched")
    ∧ (listStringMatch ["x", "y"] (["y"] ++ ["w"])).isOk = true
    ∧ listStringMatch ["x", "y"] (["y"] ++ ["w"])
        = listStringMatch ["x", "y"] ["y"] :=
  listStringMatch_error_and_leniency ["x", "y"] ["q"] ["y"] ["w"]
    (by decide) (by decide) (by decide) (by decide)

/-- C4 (counterexample): with a first field of two elements and a
second of one (`nel = [2,1]`), the ASCII row written is
elem(0,0), delim, elem(0,1), delim, elem(1,0), newline — the delimiter
appears *inside* field 0, between its two elements, and the row holds 2
delimiters rather than the `nfields - 1 = 1` that "exactly between
consecutive fields" demands. -/
theorem writeRow_delim_within_field :
    writeRowToks [2, 1]
      = [AToken.elem 0 0, AToken.delim, AToken.elem 0 1, AToken.delim,
         AToken.elem 1 0, AToken.newline]
    ∧ (writeRowToks [2, 1]).count AToken.delim = 2
    ∧ ¬ ((writeRowToks [2, 1]).count AToken.delim
          = ([2, 1] : List Nat).length - 1) := by decide

/-- C4 (amended): in an ASCII row write the delimiter is emitted after
*every element* of every field except the last field (hence between the
elements of a multi-element non-last field as well as between
consecutive fields), and never after any element of the last field; a
single newline terminates each row (one newline per row over a
multi-row write).  Only when every field has one element does this
reduce to "exactly between consecutive fields". -/
theorem writeRow_delim_placement (nel : List Nat) (h : nel ≠ []) :
    writeRowToks nel
      = ((List.range (nel.length - 1)).flatMap fun f =>
          (List.range (nel.getD f 0)).flatMap fun e =>
            [AToken.elem f e, AToken.delim])
        ++ ((List.range (nel.getD (nel.length - 1) 0)).map fun e =>
              AToken.elem (nel.length - 1) e)
        ++ [AToken.newline]
    ∧ (writeRowToks nel).count AToken.newline = 1
    ∧ ∀ nrows : Nat,
        (writeRowsToks nel nrows).count AToken.newline = nrows := by
  have hlen : nel.length = (nel.length - 1) + 1 := by
    cases nel with
    | nil => exact absurd rfl h
    | cons a l => simp
  have hstruct : writeRowToks nel
      = ((List.range (nel.length - 1)).flatMap fun f =>
          (List.range (nel.getD f 0)).flatMap fun e =>
            [AToken.elem f e, AToken.delim])
        ++ ((List.range (nel.getD (nel.length - 1) 0)).map fun e =>
              AToken.elem (nel.length - 1) e)
        ++ [AToken.newline] := by
    unfold writeRowToks
    conv_lhs => rw [hlen, List.range_succ]
    rw [List.flatMap_append, List.flatMap_singleton]
    congr 1
    congr 1
    · apply List.flatMap_congr
      intro f hf
      apply List.flatMap_congr
      intro e _
      unfold writeFieldTok
      rw [if_pos]
      rw [List.mem_range] at hf
      omega
    · have hone : ∀ e ∈ List.range (nel.getD (nel.length - 1) 0),
          writeFieldTok ((nel.length - 1) + 1) (nel.length - 1) e
            = [AToken.elem (nel.length - 1) e] := by
        intro e _
        unfold writeFieldTok
        rw [if_neg]
        omega
      rw [List.flatMap_congr hone, ← List.map_eq_flatMap]
  have hcount1 : (writeRowToks nel).count AToken.newline = 1 := by
    rw [hstruct, List.count_append, List.count_append]
    have hz1 : ((List.range (nel.length - 1)).flatMap fun f =>
          (List.range (nel.getD f 0)).flatMap fun e =>
            [AToken.elem f e, AToken.delim]).count AToken.newline = 0 := by
      apply List.count_eq_zero.mpr
      intro hmem
      rw [List.mem_flatMap] at hmem
      obtain ⟨f, _, hmem2⟩ := hmem
      rw [List.mem_flatMap] at hmem2
      obtain ⟨e, _, hmem3⟩ := hmem2
      simp at hmem3
    have hz2 : ((List.range (nel.getD (nel.length - 1) 0)).map fun e =>
          AToken.elem (nel.length - 1) e).count AToken.newline = 0 := by
      apply List.count_eq_zero.mpr
      intro hmem
      rw [List.mem_map] at hmem
      obtain ⟨e, _, hmem2⟩ := hmem
      simp at hmem2
    rw [hz1, hz2]
    rfl
  refine ⟨hstruct, hcount1, ?_⟩
  intro nrows
  induction nrows with
  | zero => rfl
  | succ m ih =>
      have e : writeRowsToks nel (m + 1)
          = writeRowToks nel ++ writeRowsToks nel m := rfl
      rw [e, List.count_append, hcount1, ih]
      omega

theorem writeRow_delim_placement_witness :
    writeRowToks [2, 1]
      = ((List.range (([2, 1] : List Nat).length - 1)).flatMap fun f =>
          (List.range (([2, 1] : List Nat).getD f 0)).flatMap fun e =>
            [AToken.elem f e, AToken.delim])
        ++ ((List.range (([2, 1] : List Nat).getD
              (([2, 1] : List Nat).length - 1) 0)).map fun e =>
              AToken.elem (([2, 1] : List Nat).length - 1) e)
        ++ [AToken.newline]
    ∧ (writeRowToks [2, 1]).count AToken.newline = 1
    ∧ ∀ nrows : Nat,
        (writeRowsToks [2, 1] nrows).count AToken.newline = nrows :=
  writeRow_delim_placement [2, 1] (by decide)

/-- C5: for a session whose delimiter is a non-whitespace string, the
scan-format table appends to every assigned (necessarily non-string)
type's base format the literal delimiter (preceded by a scanf
whitespace directive, `' ' + mDelim`), so the delimiter is consumed by
the same scan call; entries never assigned — in particular the
NPY_STRING entry — stay the bare `"%"` and receive no suffix. -/
theorem scanFormats_delim_suffix (delim : String) (i : Nat)
    (h1 : nonWhitespaceDelim delim) (h2 : i < 24) :
    (sessionScanFormats delim).getD i ("")
      = (if baseScanFormats.getD i ("") = ("%") then ("%")
         else baseScanFormats.getD i ("") ++ (" ") ++ delim)
    ∧ baseScanFormats.getD npySTRING ("") = ("%")
    ∧ (sessionScanFormats delim).getD npySTRING ("") = ("%") := by
  have hws : readAsWhitespaceOf delim = false := by
    obtain ⟨hne, hc⟩ := h1
    unfold readAsWhitespaceOf
    rcases hd : delim.data with _ | ⟨c, rest⟩
    · rfl
    · have hcw := hc c (by rw [hd]; exact List.mem_cons_self c rest)
      have hcs : c ≠ ' ' := by
        intro he
        subst he
        exact absurd hcw (by decide)
      simp [hcs]
  have hfix : scanFormatsAssigned.map fixLongLong
      = [("%"), ("%hhd"), ("%hhu"), ("%hd"), ("%hu"), ("%d"), ("%u"),
         ("%"), ("%"), ("%lld"), ("%llu"), ("%f"), ("%lf"), ("%Lf"),
         ("%"), ("%"), ("%"), ("%"), ("%"), ("%"), ("%"), ("%"), ("%"),
         ("%")] := by rfl
  have hbase : baseScanFormats
      = [("%"), ("%hhd"), ("%hhu"), ("%hd"), ("%hu"), ("%d"), ("%u"),
         ("%"), ("%"), ("%lld"), ("%llu"), ("%f"), ("%lf"), ("%Lf"),
         ("%"), ("%"), ("%"), ("%"), ("%"), ("%"), ("%"), ("%"), ("%"),
         ("%")] := by rfl
  have hsession : sessionScanFormats delim
      = (([("%"), ("%hhd"), ("%hhu"), ("%hd"), ("%hu"), ("%d"), ("%u"),
          ("%"), ("%"), ("%lld"), ("%llu"), ("%f"), ("%lf"), ("%Lf"),
          ("%"), ("%"), ("%"), ("%"), ("%"), ("%"), ("%"), ("%"), ("%"),
          ("%")] : List String).map
            fun f => if f = ("%") then f else f ++ (" ") ++ delim) := by
    unfold sessionScanFormats
    rw [hws]
    unfold makeScanFormats
    rw [hfix]
    rfl
  refine ⟨?_, by rw [hbase]; rfl, by rw [hsession]; rfl⟩
  rw [hsession, hbase]
  interval_cases i <;> simp

theorem scanFormats_delim_suffix_witness :
    nonWhitespaceDelim (",")
    ∧ (12 : Nat) < 24
    ∧ ((sessionScanFormats (",")).getD 12 ("")
        = (if baseScanFormats.getD 12 ("") = ("%") then ("%")
           else baseScanFormats.getD 12 ("") ++ (" ") ++ (","))
      ∧ baseScanFormats.getD npySTRING ("") = ("%")
      ∧ (sessionScanFormats (",")).getD npySTRING ("") = ("%")) :=
  ⟨by decide, by decide, scanFormats_delim_suffix (",") 12 (by decide) (by decide)⟩
